import Mathlib

/-!
A verification development for the playlist-query core of the rockuefort
tool (`rockuefort/__init__.py`).  Strings are modelled as `List Char`;
Python's machine-level string methods (`str.lower`, `re` word characters,
`str.strip`) are modelled per character (`Char.toLower`, alphanumeric or
underscore, `Char.isWhitespace`).  Every definition is a direct shallow
embedding of the corresponding Python function; the only abstraction is
the floating-point gain value `10 * log2(adjustment + 8) - 30`, which is
recorded as its determining integer `adjustment` because only the
presence or absence of a gain (the `math.log2` domain) matters here.
-/

/-- Python `\w` word-character test (ASCII model of `re`'s word class). -/
def isWordChar (c : Char) : Bool := c.isAlphanum || c == '_'

/-- Model of Python `str.strip()`: drop whitespace from both ends. -/
def pyStrip (s : List Char) : List Char :=
  ((s.dropWhile Char.isWhitespace).reverse.dropWhile Char.isWhitespace).reverse

/-- Model of Python `str.split(sep)` for a one-character separator. -/
def splitChar (sep : Char) : List Char → List (List Char)
  | [] => [[]]
  | c :: rest =>
    if c = sep then [] :: splitChar sep rest
    else
      match splitChar sep rest with
      | [] => [[c]]
      | g :: gs => (c :: g) :: gs

/-- Model of Python `int(...)` on a digit string. -/
def digitsToNat (d : List Char) : Nat :=
  d.foldl (fun n c => n * 10 + (c.toNat - '0'.toNat)) 0

/-- Model of Python `list.insert(pos, x)` (clamping at the list ends). -/
def pyInsert (l : List α) (pos : Nat) (x : α) : List α :=
  l.take pos ++ x :: l.drop pos

/-- The five known tag names (`TAGS = "title artist album genre composer"`),
as an enumerated identifier (the source fetches record fields by name). -/
inductive Tag
  | title | artist | album | genre | composer
deriving DecidableEq

/-- One track record of the library index (`CacheEntry`): a path plus the
five multi-valued tag fields coming from mutagen. -/
structure CacheEntry where
  path : List Char
  title : List (List Char)
  artist : List (List Char)
  album : List (List Char)
  genre : List (List Char)
  composer : List (List Char)
deriving DecidableEq

/-- Dispatch table for the source's `getattr(x, attr)` on a tag name. -/
def getTagField (x : CacheEntry) : Tag → List (List Char)
  | Tag.title => x.title
  | Tag.artist => x.artist
  | Tag.album => x.album
  | Tag.genre => x.genre
  | Tag.composer => x.composer

/-- Lookup from a validated tag string to the enumerated tag
(the source's `tag in TAGS` membership test plus field lookup). -/
def tagOfString (s : List Char) : Option Tag :=
  if s = "title".toList then some Tag.title
  else if s = "artist".toList then some Tag.artist
  else if s = "album".toList then some Tag.album
  else if s = "genre".toList then some Tag.genre
  else if s = "composer".toList then some Tag.composer
  else none

/-- The reserved sentinel used to join multi-valued fields (`"\N{SNOWMAN}"`). -/
def snowmanChar : Char := '☃'

/-- Model of the source's `matches(value, attr_list)` (the word is
reserved in Lean, hence the longer name): an empty value tests for an
empty field; a double-quoted value is exact-element membership of the
unwrapped string; otherwise a lowercased substring test against the
fields joined with the snowman sentinel and lowercased. -/
def matchesValue (value : List Char) (attr_list : List (List Char)) : Bool :=
  if value = [] then attr_list.length == 0
  else if value.head? = some '"' ∧ value.getLast? = some '"' then
    attr_list.contains ((value.drop 1).dropLast)
  else
    decide ((value.map Char.toLower) <:+:
      ((List.intercalate [snowmanChar] attr_list).map Char.toLower))

/-- Model of `match_files(query, cache)`: left-to-right filtering of the
index by each `(tag, value)` pair, then projection to paths. -/
def match_files (query : List (Tag × List Char)) (cache : List CacheEntry) :
    List (List Char) :=
  (query.foldl (fun ms p => ms.filter (fun x => matchesValue p.2 (getTagField x p.1)))
    cache).map (fun x => x.path)

/-- Model of Python `str.rfind(c)`: index of the last occurrence, `-1` if none. -/
def rfind (c : Char) (s : List Char) : Int :=
  s.enum.foldl (fun acc p => if p.2 = c then (p.1 : Int) else acc) (-1)

/-- Model of `os.path.splitext` (posix, from CPython `genericpath._splitext`):
split at the last dot after the last separator, unless the basename up to
that dot is entirely dots. -/
def splitext (p : List Char) : List Char × List Char :=
  let sepIndex := rfind '/' p
  let dotIndex := rfind '.' p
  if dotIndex > sepIndex then
    if ((p.take dotIndex.toNat).drop (sepIndex + 1).toNat).any (fun c => c ≠ '.') then
      (p.take dotIndex.toNat, p.drop dotIndex.toNat)
    else (p, [])
  else (p, [])

/-- Base path: `splitext(file)[0]`. -/
def baseOf (f : List Char) : List Char := (splitext f).1

/-- Extension: `splitext(file)[1]`. -/
def extOf (f : List Char) : List Char := (splitext f).2

/-- `PREFERRED_EXTENSIONS = ".oga .ogg .mp3 .flac".split()`. -/
def PREFERRED_EXTENSIONS : List (List Char) :=
  [".oga".toList, ".ogg".toList, ".mp3".toList, ".flac".toList]

/-- Model of `extensions.setdefault(base, []).append(ext)` on an
insertion-ordered dict represented as an association list: append `ext`
to the entry holding `base`, or add a new entry at the end. -/
def upsert : List (List Char × List (List Char)) → List Char → List Char →
    List (List Char × List (List Char))
  | [], b, e => [(b, [e])]
  | (b0, es) :: rest, b, e =>
    if b0 = b then (b0, es ++ [e]) :: rest else (b0, es) :: upsert rest b e

/-- The grouping loop of `filter_extensions`: the dict `extensions`. -/
def groupsOf (files : List (List Char)) : List (List Char × List (List Char)) :=
  files.foldl (fun gs f => upsert gs (baseOf f) (extOf f)) []

/-- The source's `next((e for e in PREFERRED_EXTENSIONS if e in exts), exts[0])`. -/
def choosePreferred (exts : List (List Char)) : List Char :=
  (PREFERRED_EXTENSIONS.find? (fun e => exts.contains e)).getD (exts.headD [])

/-- Model of `filter_extensions(files)`: group by base path, then emit one
path per group with the preferred extension. -/
def filter_extensions (files : List (List Char)) : List (List Char) :=
  (groupsOf files).map (fun g => g.1 ++ choosePreferred g.2)

/-- The two classified entry-parsing failures. -/
inductive QError
  | parse
  | invalidTag
deriving DecidableEq

/-- Model of a parsed `PlaylistEntry` namedtuple. -/
structure PlaylistEntry where
  query : List (Tag × List Char)
  count : Nat
  options : List Char
  crop : Option (List Char)
deriving DecidableEq

/-- One `tag=value` clause of the query body (`[\w]+=[^|]*`), as produced
by `part.split("=", maxsplit=1)` under the regex's constraints. -/
def parseClause (part : List Char) : Option (List Char × List Char) :=
  let tag := part.takeWhile isWordChar
  if tag = [] then none
  else
    match part.drop tag.length with
    | '=' :: value => some (tag, value)
    | _ => none

/-- Model of `PlaylistEntry.from_string`: the regex
`([^\w]+)? ((\d+):)? ([\w]+=[^pipe]* (pipe [\w]+=[^pipe]*)*)` (fullmatch,
with `pipe` the vertical bar), then crop extraction and tag validation.
The regex is deterministic here because options consume only non-word
characters while the count and each tag start with a word character. -/
def from_string (s : List Char) : Except QError PlaylistEntry :=
  let options := s.takeWhile (fun c => !(isWordChar c))
  let r := s.drop options.length
  let d := r.takeWhile Char.isDigit
  let hasCount := !d.isEmpty && ((r.drop d.length).head? == some ':')
  let count := if hasCount then digitsToNat d else 1
  let q := if hasCount then r.drop (d.length + 1) else r
  match (splitChar '|' q).mapM parseClause with
  | none => Except.error QError.parse
  | some query_parts =>
    match (query_parts.filter (fun p => p.1 != "crop".toList)).mapM
        (fun p => (tagOfString p.1).map (fun t => (t, p.2))) with
    | none => Except.error QError.invalidTag
    | some query =>
      let crop := (query_parts.find? (fun p => p.1 == "crop".toList)).map
        (fun p => p.2)
      Except.ok ⟨query, count, options, crop⟩

/-- Model of `parse_entries(lines)`: strip each line, skip blanks and
`#` comments, drop entries whose parse raises either classified error. -/
def parse_entries (lines : List (List Char)) : List PlaylistEntry :=
  lines.filterMap (fun line =>
    let l := pyStrip line
    if l = [] ∨ l.head? = some '#' then none
    else
      match from_string l with
      | Except.ok e => some e
      | Except.error _ => none)

/-- Model of `FileWrapper`: a path plus the optional per-file hints.  The
gain is recorded as the integer `adjustment` determining
`10 * log2(adjustment + 8) - 30` (see the file comment). -/
structure FileWrapper where
  path : List Char
  gain : Option Int
  trim_positions : Option (List (List Char))
deriving DecidableEq

/-- Model of `MatchResult` / `GroupedMatchResult`: an explicit tagged
struct instead of the source's list subclasses. -/
structure MatchResult where
  files : List FileWrapper
  grouped : Bool
  fixed_position : Bool
deriving DecidableEq

/-- `volume_adjustment = entry.options.count('+') - entry.options.count('-')`. -/
def optAdj (options : List Char) : Int :=
  (options.count '+' : Int) - (options.count '-' : Int)

/-- The gain computation of `get_results`: attached when the adjustment is
nonzero (Python truthiness) and `math.log2(adjustment + 8)` is defined
(argument positive); the `ValueError` branch attaches none. -/
def entryGain (options : List Char) : Option Int :=
  if optAdj options ≠ 0 ∧ optAdj options + 8 > 0 then some (optAdj options)
  else none

/-- The per-entry part of `get_results` up to the `FileWrapper` list:
match, deduplicate extensions, and attach gain and crop hints. -/
def entryFiles (cache : List CacheEntry) (e : PlaylistEntry) : List FileWrapper :=
  let matched := filter_extensions (match_files e.query cache)
  let gain := entryGain e.options
  let trim : Option (List (List Char)) :=
    match e.crop with
    | some c => if c = [] then none else some (splitChar ',' c)
    | none => none
  matched.map (fun f => ⟨f, gain, trim⟩)

/-- The merge policy of `get_results` (lines appending to `results`):
a grouped entry extends a trailing grouped unit or starts a new grouped
unit; a non-grouped entry appends one unit per file. -/
def composeStep (results : List MatchResult) (grouped : Bool)
    (files : List FileWrapper) : List MatchResult :=
  if grouped then
    match results.getLast? with
    | some last =>
      if last.grouped then
        results.dropLast ++ [⟨last.files ++ files, true, last.fixed_position⟩]
      else results ++ [⟨files, true, false⟩]
    | none => results ++ [⟨files, true, false⟩]
  else results ++ files.map (fun f => ⟨[f], false, false⟩)

/-- One iteration of the `get_results` loop.  The final
`results[-1].fixed_position = True` raises `IndexError` when `results`
is empty, modelled as the `Except` error. -/
def processEntry (cache : List CacheEntry) (results : List MatchResult)
    (e : PlaylistEntry) : Except Unit (List MatchResult) :=
  let files := entryFiles cache e
  let results' := composeStep results (e.options.contains '|') files
  if e.options.contains '@' then
    match results'.getLast? with
    | some last => Except.ok (results'.dropLast ++ [⟨last.files, last.grouped, true⟩])
    | none => Except.error ()
  else Except.ok results'

/-- The `get_results` loop with an explicit accumulator. -/
def get_resultsAux (cache : List CacheEntry) :
    List MatchResult → List PlaylistEntry → Except Unit (List MatchResult)
  | results, [] => Except.ok results
  | results, e :: es =>
    match processEntry cache results e with
    | Except.ok r => get_resultsAux cache r es
    | Except.error x => Except.error x

/-- Model of `get_results(entries, cache)`. -/
def get_results (entries : List PlaylistEntry) (cache : List CacheEntry) :
    Except Unit (List MatchResult) :=
  get_resultsAux cache [] entries

/-- The partition loop of `shuffled`: walk `results` with `enumerate`,
collecting fixed units with their positions and the remaining units. -/
def partitionResults (results : List MatchResult) :
    List (Nat × MatchResult) × List MatchResult :=
  results.enum.foldl
    (fun acc pr =>
      if pr.2.fixed_position then (acc.1 ++ [pr], acc.2) else (acc.1, acc.2 ++ [pr.2]))
    ([], [])

/-- Model of `shuffled(results)`, parametrised by the permutation that
`random.shuffle` applies to the non-fixed units: re-insert each fixed
unit at its original index, in original order. -/
def shuffled (perm : List MatchResult → List MatchResult)
    (results : List MatchResult) : List MatchResult :=
  let p := partitionResults results
  p.1.foldl (fun acc pr => pyInsert acc pr.1 pr.2) (perm p.2)

/-- Model of `itertools.chain(*results)`: flatten the units in order. -/
def flattenUnits (results : List MatchResult) : List FileWrapper :=
  results.foldr (fun r acc => r.files ++ acc) []

/-- Model of the core of `load_playlist`: parse, compose, optionally
shuffle, flatten. -/
def load_playlist_core (lines : List (List Char)) (cache : List CacheEntry)
    (shuffle : Bool) (perm : List MatchResult → List MatchResult) :
    Except Unit (List FileWrapper) :=
  match get_results (parse_entries lines) cache with
  | Except.error x => Except.error x
  | Except.ok results =>
    Except.ok (flattenUnits (if shuffle then shuffled perm results else results))

/-- Spec-side: the fixed units with their original indices
("partition into fixed = ordered list of (originalIndex, unit)"). -/
def fixedUnits (l : List MatchResult) : List (Nat × MatchResult) :=
  l.enum.filter (fun p => p.2.fixed_position)

/-- Spec-side: the non-fixed units in preserved relative order. -/
def nonFixedUnits (l : List MatchResult) : List MatchResult :=
  l.filter (fun r => !r.fixed_position)

/-- Spec-side: first occurrences of a list, in order of first appearance. -/
def dedupAux : List (List Char) → List (List Char) → List (List Char)
  | acc, [] => acc
  | acc, x :: xs => dedupAux (if acc.contains x then acc else acc ++ [x]) xs

/-- Spec-side: the distinct elements of a list, keeping first appearances. -/
def dedupFirst (l : List (List Char)) : List (List Char) := dedupAux [] l

/-- Spec-side: the extensions of all input paths sharing base path `b`,
in matched order. -/
def extsIn (files : List (List Char)) (b : List Char) : List (List Char) :=
  (files.filter (fun f => baseOf f == b)).map extOf

/-- Spec-side pick: the member extension appearing earliest in the fixed
priority list, else the first-encountered member. -/
def pickSpec (exts : List (List Char)) : List Char :=
  match PREFERRED_EXTENSIONS.filter (fun e => exts.contains e) with
  | p :: _ => p
  | [] => exts.headD []

deriving instance DecidableEq for Except

/-- A one-track sample index used for concrete instantiations. -/
def sampleBob : CacheEntry :=
  ⟨"/m/bob.mp3".toList, [], ["Bob".toList], [], [], []⟩

/-- A plain entry matching the sample track. -/
def samplePlainEntry : PlaylistEntry :=
  ⟨[(Tag.artist, "Bob".toList)], 1, [], none⟩

/-- A grouped entry (`|` option) matching the sample track. -/
def sampleGroupedEntry : PlaylistEntry :=
  ⟨[(Tag.artist, "Bob".toList)], 1, "|".toList, none⟩

/-- The spec's scenario entry `--------artist=Bob` (adjustment `-8`). -/
def sampleQuietEntry : PlaylistEntry :=
  ⟨[(Tag.artist, "Bob".toList)], 1, "--------".toList, none⟩

/-- A grouped entry whose query matches nothing in the sample index. -/
def sampleEmptyGroupEntry : PlaylistEntry :=
  ⟨[(Tag.artist, "zzz".toList)], 1, "|".toList, none⟩

/-! ## Theorems -/

/-- For nonempty `v` wrapped in quotes, the quoted branch of the matcher
is reached and tests exact membership. -/
theorem matchesValue_quoted (v : List Char) (f : List (List Char))
    (h1 : v.head? = some '"') (h2 : v.getLast? = some '"') :
    matchesValue v f = f.contains ((v.drop 1).dropLast) := by
  have hne : v ≠ [] := by intro h; rw [h] at h1; simp at h1
  unfold matchesValue
  rw [if_neg hne, if_pos (And.intro h1 h2)]

/-- C1 (corrected): for a value that starts and ends with a double quote,
the matcher strips the quotes and succeeds iff the unwrapped value is
literally equal to one element of the field's sequence — the comparison is
case-sensitive, not case-insensitive as the spec sentence claims. -/
theorem C1_quoted_match_case_sensitive (v : List Char) (f : List (List Char))
    (h1 : v.head? = some '"') (h2 : v.getLast? = some '"') :
    matchesValue v f = true ↔ ((v.drop 1).dropLast) ∈ f := by
  rw [matchesValue_quoted v f h1 h2]
  exact List.elem_iff

/-- Witness for C1: a concretely quoted value reaching the theorem. -/
theorem C1_quoted_match_case_sensitive_witness :
    ("\"Bob\"".toList.head? = some '"' ∧ "\"Bob\"".toList.getLast? = some '"') ∧
    (matchesValue "\"Bob\"".toList ["Bob".toList] = true ↔
      (("\"Bob\"".toList.drop 1).dropLast) ∈ ["Bob".toList]) :=
  ⟨by decide, C1_quoted_match_case_sensitive _ _ (by decide) (by decide)⟩

/-- C1 (counterexample): the unwrapped value `a` equals the field element
`A` up to case, yet the matcher rejects — quoted matching is not
case-insensitive. -/
theorem C1_quoted_match_not_case_insensitive :
    matchesValue "\"a\"".toList ["A".toList] = false ∧
    "a".toList.map Char.toLower = "A".toList.map Char.toLower := by
  constructor
  · decide
  · decide

/-- The matcher's fold of filters equals one filter by the conjunction of
all query pairs. -/
theorem foldl_filter_eq_filter_all (q : List (Tag × List Char))
    (cache : List CacheEntry) :
    q.foldl (fun ms p => ms.filter (fun x => matchesValue p.2 (getTagField x p.1)))
        cache =
      cache.filter (fun x => q.all (fun p => matchesValue p.2 (getTagField x p.1))) := by
  induction q generalizing cache with
  | nil => simp
  | cons p q ih =>
    rw [List.foldl_cons, ih, List.filter_filter]
    apply List.filter_congr
    intro x _
    simp [Bool.and_comm]

/-- C3 (confirmed): the matcher returns exactly the paths of the records
satisfying every query pair, in index order; the empty query yields every
path; the result is an order-preserving subsequence of the index's paths. -/
theorem C3_match_files_conjunctive_ordered (q : List (Tag × List Char))
    (cache : List CacheEntry) :
    match_files q cache =
      (cache.filter
        (fun x => q.all (fun p => matchesValue p.2 (getTagField x p.1)))).map
        (fun x => x.path) ∧
    match_files [] cache = cache.map (fun x => x.path) ∧
    List.Sublist (match_files q cache) (cache.map (fun x => x.path)) := by
  refine ⟨?_, ?_, ?_⟩
  · unfold match_files
    rw [foldl_filter_eq_filter_all]
  · unfold match_files
    simp
  · unfold match_files
    rw [foldl_filter_eq_filter_all]
    exact List.Sublist.map _ (List.filter_sublist cache)

/-- C4 (confirmed): for a value not wrapped in double quotes, the matcher
succeeds on an empty value iff the field has zero elements, and on a
non-empty value iff the lowercased value is a contiguous substring of the
field's elements joined by the snowman sentinel and lowercased. -/
theorem C4_unquoted_match_sentinel_substring (v : List Char)
    (f : List (List Char))
    (h : ¬(v.head? = some '"' ∧ v.getLast? = some '"')) :
    matchesValue v f = true ↔
      (if v = [] then f = []
       else (v.map Char.toLower) <:+:
         ((List.intercalate [snowmanChar] f).map Char.toLower)) := by
  unfold matchesValue
  by_cases hv : v = []
  · subst hv
    simp
  · rw [if_neg hv, if_neg h, if_neg hv]
    simp

/-- Witness for C4: a concrete unquoted value matching case-insensitively
across a multi-valued field. -/
theorem C4_unquoted_match_sentinel_substring_witness :
    (¬("song".toList.head? = some '"' ∧ "song".toList.getLast? = some '"')) ∧
    (matchesValue "song".toList ["A Song".toList] = true ↔
      (if "song".toList = [] then ["A Song".toList] = []
       else ("song".toList.map Char.toLower) <:+:
         ((List.intercalate [snowmanChar] ["A Song".toList]).map Char.toLower))) :=
  ⟨by decide, C4_unquoted_match_sentinel_substring _ _ (by decide)⟩

/-- A path splits back together: `splitext(p)[0] + splitext(p)[1] = p`. -/
theorem splitext_fst_append_snd (p : List Char) :
    (splitext p).1 ++ (splitext p).2 = p := by
  unfold splitext
  dsimp only
  split
  · split
    · exact List.take_append_drop _ p
    · simp
  · simp

/-- Membership across the first-appearance deduplication accumulator. -/
theorem mem_dedupAux (xs : List (List Char)) :
    ∀ (acc : List (List Char)) (y : List Char),
      y ∈ dedupAux acc xs ↔ y ∈ acc ∨ y ∈ xs := by
  induction xs with
  | nil => intro acc y; simp [dedupAux]
  | cons x xs ih =>
    intro acc y
    simp only [dedupAux]
    rw [ih]
    by_cases h : acc.contains x
    · have hx : x ∈ acc := by simpa using h
      rw [if_pos h]
      constructor
      · rintro (h1 | h1)
        · exact Or.inl h1
        · exact Or.inr (List.mem_cons_of_mem _ h1)
      · rintro (h1 | h1)
        · exact Or.inl h1
        · rcases List.mem_cons.mp h1 with h2 | h2
          · exact Or.inl (h2 ▸ hx)
          · exact Or.inr h2
    · rw [if_neg h]
      simp only [List.mem_append, List.mem_singleton, List.mem_cons]
      tauto

/-- The deduplicated list has no duplicates. -/
theorem nodup_dedupAux (xs : List (List Char)) :
    ∀ (acc : List (List Char)), acc.Nodup → (dedupAux acc xs).Nodup := by
  induction xs with
  | nil => intro acc h; simpa [dedupAux] using h
  | cons x xs ih =>
    intro acc h
    simp only [dedupAux]
    by_cases hc : acc.contains x
    · rw [if_pos hc]; exact ih acc h
    · rw [if_neg hc]
      apply ih
      have hx : x ∉ acc := by simpa using hc
      simp [List.nodup_append, h, hx]

/-- Membership in the deduplicated list is membership in the input. -/
theorem mem_dedupFirst (xs : List (List Char)) (y : List Char) :
    y ∈ dedupFirst xs ↔ y ∈ xs := by
  unfold dedupFirst
  rw [mem_dedupAux]
  simp

/-- The deduplicated list has no duplicates. -/
theorem nodup_dedupFirst (xs : List (List Char)) : (dedupFirst xs).Nodup :=
  nodup_dedupAux xs [] List.nodup_nil

/-- Deduplicating a duplicate-free list changes nothing. -/
theorem dedupAux_of_nodup (xs : List (List Char)) :
    ∀ (acc : List (List Char)), (∀ x ∈ xs, x ∉ acc) → xs.Nodup →
      dedupAux acc xs = acc ++ xs := by
  induction xs with
  | nil => intro acc _ _; simp [dedupAux]
  | cons x xs ih =>
    intro acc hdisj hnd
    have hx : x ∉ acc := hdisj x (List.mem_cons_self x xs)
    have hc : acc.contains x = false := by simpa using hx
    simp only [dedupAux, hc, Bool.false_eq_true, if_false]
    rw [ih (acc ++ [x])]
    · simp
    · intro y hy
      simp only [List.mem_append, List.mem_singleton]
      rintro (h1 | h1)
      · exact hdisj y (List.mem_cons_of_mem _ hy) h1
      · exact (List.nodup_cons.mp hnd).1 (h1 ▸ hy)
    · exact (List.nodup_cons.mp hnd).2

/-- Deduplicating a duplicate-free list changes nothing. -/
theorem dedupFirst_of_nodup (xs : List (List Char)) (h : xs.Nodup) :
    dedupFirst xs = xs := by
  unfold dedupFirst
  rw [dedupAux_of_nodup xs [] (by simp) h]
  simp

/-- Appending one element to the input of the deduplication. -/
theorem dedupAux_append_one (xs : List (List Char)) :
    ∀ (acc : List (List Char)) (y : List Char),
      dedupAux acc (xs ++ [y]) =
        (if y ∈ dedupAux acc xs then dedupAux acc xs
         else dedupAux acc xs ++ [y]) := by
  induction xs with
  | nil =>
    intro acc y
    simp only [List.nil_append, dedupAux]
    by_cases h : acc.contains y
    · rw [if_pos h, if_pos (by simpa using h)]
    · rw [if_neg h, if_neg (by simpa using h)]
  | cons x xs ih =>
    intro acc y
    simp only [List.cons_append, dedupAux]
    exact ih _ y

/-- Appending one element to the input of `dedupFirst`. -/
theorem dedupFirst_append_one (xs : List (List Char)) (y : List Char) :
    dedupFirst (xs ++ [y]) =
      (if y ∈ xs then dedupFirst xs else dedupFirst xs ++ [y]) := by
  have h : (y ∈ dedupFirst xs) ↔ y ∈ xs := mem_dedupFirst xs y
  unfold dedupFirst at h ⊢
  rw [dedupAux_append_one]
  simp only [h]

/-- `upsert` on a canonical association list with duplicate-free keys:
either every entry keeps its key and the matching entry gains the new
extension, or a fresh entry is appended. -/
theorem upsert_canonical (L : List (List Char))
    (g : List Char → List (List Char)) (b e : List Char) (hL : L.Nodup) :
    upsert (L.map fun b0 => (b0, g b0)) b e =
      (if b ∈ L then
        L.map (fun b0 => (b0, g b0 ++ if b0 = b then [e] else []))
       else L.map (fun b0 => (b0, g b0)) ++ [(b, [e])]) := by
  induction L with
  | nil => simp [upsert]
  | cons b0 L ih =>
    have hb0L : b0 ∉ L := (List.nodup_cons.mp hL).1
    have hLnd : L.Nodup := (List.nodup_cons.mp hL).2
    simp only [List.map_cons, upsert]
    by_cases hb : b0 = b
    · subst hb
      rw [if_pos rfl, if_pos (List.mem_cons_self b0 L)]
      simp only [List.map_cons, if_pos rfl]
      congr 1
      apply List.map_congr_left
      intro a ha
      have hne : a ≠ b0 := fun h => hb0L (h ▸ ha)
      simp [hne]
    · rw [if_neg hb, ih hLnd]
      by_cases hbL : b ∈ L
      · rw [if_pos hbL, if_pos (List.mem_cons_of_mem _ hbL)]
        simp [hb]
      · have hnotin : b ∉ b0 :: L := by
          intro hc
          rcases List.mem_cons.mp hc with h1 | h1
          · exact hb h1.symm
          · exact hbL h1
        rw [if_neg hbL, if_neg hnotin]
        simp

/-- Appending one path extends the extension list of its base group. -/
theorem extsIn_append_one (files : List (List Char)) (f b : List Char) :
    extsIn (files ++ [f]) b =
      extsIn files b ++ (if baseOf f = b then [extOf f] else []) := by
  unfold extsIn
  rw [List.filter_append, List.map_append]
  congr 1
  by_cases h : baseOf f = b <;> simp [h]

/-- A base that never appears has an empty extension list. -/
theorem extsIn_eq_nil (files : List (List Char)) (b : List Char)
    (h : b ∉ files.map baseOf) : extsIn files b = [] := by
  unfold extsIn
  rw [List.filter_eq_nil_iff.mpr, List.map_nil]
  intro f hf
  simp only [beq_iff_eq]
  intro hb
  exact h (hb ▸ List.mem_map_of_mem baseOf hf)

/-- The grouping dict of `filter_extensions`, characterised: its keys are
the distinct base paths in order of first appearance, and each key maps
to the extensions of all its paths in matched order. -/
theorem groupsOf_canonical (files : List (List Char)) :
    groupsOf files =
      (dedupFirst (files.map baseOf)).map (fun b => (b, extsIn files b)) := by
  induction files using List.reverseRecOn with
  | nil => simp [groupsOf, dedupFirst, dedupAux, extsIn]
  | append_singleton files f ih =>
    have hfold : groupsOf (files ++ [f]) =
        upsert (groupsOf files) (baseOf f) (extOf f) := by
      unfold groupsOf
      rw [List.foldl_append]
      rfl
    rw [hfold, ih, upsert_canonical _ _ _ _ (nodup_dedupFirst _),
      List.map_append, List.map_singleton, dedupFirst_append_one]
    by_cases hmem : baseOf f ∈ files.map baseOf
    · rw [if_pos ((mem_dedupFirst _ _).mpr hmem), if_pos hmem]
      apply List.map_congr_left
      intro b hb
      rw [extsIn_append_one]
      by_cases hEq : b = baseOf f
      · subst hEq
        simp
      · have hEq2 : ¬(baseOf f = b) := fun h => hEq h.symm
        simp [hEq, hEq2]
    · rw [if_neg (fun hc => hmem ((mem_dedupFirst _ _).mp hc)), if_neg hmem,
        List.map_append, List.map_singleton]
      congr 1
      · apply List.map_congr_left
        intro b hb
        rw [extsIn_append_one]
        have hEq2 : ¬(baseOf f = b) := by
          intro h
          exact hmem (h ▸ (mem_dedupFirst _ _).mp hb)
        simp [hEq2]
      · rw [extsIn_append_one, extsIn_eq_nil files _ hmem]
        simp

/-- `find?` returns the head of the filtered list. -/
theorem find?_eq_head?_filter (p : List Char → Bool) (l : List (List Char)) :
    l.find? p = (l.filter p).head? := by
  induction l with
  | nil => rfl
  | cons x l ih =>
    by_cases h : p x
    · rw [List.find?_cons_of_pos _ h, List.filter_cons_of_pos h]
      rfl
    · rw [List.find?_cons_of_neg _ h, List.filter_cons_of_neg h, ih]

/-- The source's `next(...)` pick agrees with the spec-side pick. -/
theorem choosePreferred_eq_pickSpec (exts : List (List Char)) :
    choosePreferred exts = pickSpec exts := by
  unfold choosePreferred pickSpec
  rw [find?_eq_head?_filter]
  cases h : PREFERRED_EXTENSIONS.filter (fun e => exts.contains e) with
  | nil => simp
  | cons p ps => simp

/-- The chosen extension is always one of the group's extensions. -/
theorem choosePreferred_mem (exts : List (List Char)) (h : exts ≠ []) :
    choosePreferred exts ∈ exts := by
  unfold choosePreferred
  cases hf : PREFERRED_EXTENSIONS.find? (fun e => exts.contains e) with
  | some e =>
    have := List.find?_some hf
    simpa using this
  | none =>
    cases exts with
    | nil => exact absurd rfl h
    | cons x xs => simp

/-- Choosing from a one-extension group returns that extension. -/
theorem choosePreferred_singleton (x : List Char) :
    choosePreferred [x] = x := by
  unfold choosePreferred
  cases hf : PREFERRED_EXTENSIONS.find? (fun e => [x].contains e) with
  | some e =>
    have he := List.find?_some hf
    have : e = x := by simpa using he
    simp [this]
  | none => simp

/-- The deduplicator, characterised: one output path per distinct base
path in order of first appearance, each carrying the chosen extension of
its group. -/
theorem filter_extensions_eq (files : List (List Char)) :
    filter_extensions files =
      (dedupFirst (files.map baseOf)).map
        (fun b => b ++ choosePreferred (extsIn files b)) := by
  unfold filter_extensions
  rw [groupsOf_canonical, List.map_map]
  rfl

/-- C7 (confirmed): the deduplicator outputs exactly one path per distinct
base path, in first-appearance order, picking the extension appearing
earliest in the fixed priority list and otherwise the first-encountered
member; in particular `track.mp3` and `track.ogg` collapse to `track.ogg`. -/
theorem C7_filter_extensions_characterization (files : List (List Char)) :
    filter_extensions files =
      (dedupFirst (files.map baseOf)).map
        (fun b => b ++ pickSpec (extsIn files b)) ∧
    filter_extensions ["track.mp3".toList, "track.ogg".toList] =
      ["track.ogg".toList] := by
  constructor
  · rw [filter_extensions_eq]
    apply List.map_congr_left
    intro b _
    rw [choosePreferred_eq_pickSpec]
  · decide

/-- Any extension recorded for a base splits back to that base and
extension: the recorded pair came from an actual input path. -/
theorem splitext_of_mem_extsIn (files : List (List Char)) (b e : List Char)
    (he : e ∈ extsIn files b) : splitext (b ++ e) = (b, e) := by
  unfold extsIn at he
  rcases List.mem_map.mp he with ⟨f, hf, hext⟩
  rcases List.mem_filter.mp hf with ⟨_, hbase⟩
  have hbase2 : baseOf f = b := by simpa using hbase
  have hsplit : f = b ++ e := by
    rw [← hbase2, ← hext]
    exact (splitext_fst_append_snd f).symm
  rw [← hsplit, ← hbase2, ← hext]
  unfold baseOf extOf
  rfl

/-- A base that appears among the inputs has a nonempty extension group. -/
theorem extsIn_ne_nil (files : List (List Char)) (b : List Char)
    (h : b ∈ files.map baseOf) : extsIn files b ≠ [] := by
  rcases List.mem_map.mp h with ⟨f, hf, hb⟩
  unfold extsIn
  intro hc
  rw [List.map_eq_nil_iff, List.filter_eq_nil_iff] at hc
  exact hc f hf (by simp [hb])

/-- Filtering a duplicate-free list for one known member. -/
theorem filter_eq_singleton_of_nodup (L : List (List Char)) (b : List Char)
    (hnd : L.Nodup) (hb : b ∈ L) :
    L.filter (fun x => x == b) = [b] := by
  induction L with
  | nil => cases hb
  | cons a L ih =>
    rcases List.mem_cons.mp hb with h1 | h1
    · have hnotin : b ∉ L := by
        rw [h1]
        exact (List.nodup_cons.mp hnd).1
      have hfil : List.filter (fun x => x == b) L = [] := by
        rw [List.filter_eq_nil_iff]
        intro x hx
        simp only [beq_iff_eq]
        exact fun hxb => hnotin (hxb ▸ hx)
      simp only [List.filter_cons]
      rw [if_pos (by simp [h1]), hfil, h1]
    · have hne : ¬((a == b) = true) := by
        simp only [beq_iff_eq]
        intro hab
        exact (List.nodup_cons.mp hnd).1 (hab ▸ h1)
      simp only [List.filter_cons]
      rw [if_neg hne]
      exact ih (List.nodup_cons.mp hnd).2 h1

/-- C9 (confirmed): the extension deduplicator is idempotent. -/
theorem C9_filter_extensions_idempotent (files : List (List Char)) :
    filter_extensions (filter_extensions files) = filter_extensions files := by
  have hkey : ∀ b ∈ dedupFirst (files.map baseOf),
      splitext (b ++ choosePreferred (extsIn files b)) =
        (b, choosePreferred (extsIn files b)) := by
    intro b hb
    apply splitext_of_mem_extsIn
    exact choosePreferred_mem _ (extsIn_ne_nil files b ((mem_dedupFirst _ _).mp hb))
  have hbases : (filter_extensions files).map baseOf = dedupFirst (files.map baseOf) := by
    rw [filter_extensions_eq, List.map_map]
    conv_rhs => rw [← List.map_id (dedupFirst (files.map baseOf))]
    apply List.map_congr_left
    intro b hb
    show baseOf (b ++ choosePreferred (extsIn files b)) = b
    unfold baseOf
    rw [hkey b hb]
  have hexts : ∀ b ∈ dedupFirst (files.map baseOf),
      extsIn (filter_extensions files) b = [choosePreferred (extsIn files b)] := by
    intro b hb
    have hdef : extsIn (filter_extensions files) b =
        ((filter_extensions files).filter (fun f => baseOf f == b)).map extOf := rfl
    rw [hdef, filter_extensions_eq, List.filter_map]
    have hfc : (dedupFirst (files.map baseOf)).filter
        ((fun o => baseOf o == b) ∘ fun b0 => b0 ++ choosePreferred (extsIn files b0)) =
        (dedupFirst (files.map baseOf)).filter (fun x => x == b) := by
      apply List.filter_congr
      intro b0 hb0
      show (baseOf (b0 ++ choosePreferred (extsIn files b0)) == b) = (b0 == b)
      unfold baseOf
      rw [hkey b0 hb0]
    rw [hfc, filter_eq_singleton_of_nodup _ b (nodup_dedupFirst _) hb,
      List.map_singleton, List.map_singleton]
    have hext1 : extOf (b ++ choosePreferred (extsIn files b)) =
        choosePreferred (extsIn files b) := by
      unfold extOf
      rw [hkey b hb]
    rw [hext1]
  conv_lhs => rw [filter_extensions_eq (filter_extensions files)]
  rw [hbases, dedupFirst_of_nodup _ (nodup_dedupFirst _)]
  conv_rhs => rw [filter_extensions_eq files]
  apply List.map_congr_left
  intro b hb
  rw [hexts b hb, choosePreferred_singleton]

/-- Flattening distributes over unit-list concatenation. -/
theorem flattenUnits_append (a b : List MatchResult) :
    flattenUnits (a ++ b) = flattenUnits a ++ flattenUnits b := by
  induction a with
  | nil => rfl
  | cons x a ih =>
    show x.files ++ flattenUnits (a ++ b) = (x.files ++ flattenUnits a) ++ flattenUnits b
    rw [ih, List.append_assoc]

/-- Flattening the per-file singleton units of a non-grouped entry
recovers its file list. -/
theorem flattenUnits_map_singleton (files : List FileWrapper) :
    flattenUnits (files.map (fun f => (⟨[f], false, false⟩ : MatchResult))) =
      files := by
  induction files with
  | nil => rfl
  | cons f fs ih =>
    show [f] ++ flattenUnits (fs.map fun f => (⟨[f], false, false⟩ : MatchResult)) = f :: fs
    rw [ih]
    rfl

/-- The compose step adds exactly the entry's files to the flattened
output, in every branch of the merge policy. -/
theorem flattenUnits_composeStep (results : List MatchResult) (grouped : Bool)
    (files : List FileWrapper) :
    flattenUnits (composeStep results grouped files) =
      flattenUnits results ++ files := by
  unfold composeStep
  by_cases hg : grouped
  · rw [if_pos hg]
    cases hlast : results.getLast? with
    | none =>
      rw [flattenUnits_append]
      show flattenUnits results ++ (files ++ []) = flattenUnits results ++ files
      rw [List.append_nil]
    | some last =>
      dsimp only
      by_cases hgl : last.grouped
      · rw [if_pos hgl]
        obtain ⟨ys, rfl⟩ := List.getLast?_eq_some_iff.mp hlast
        rw [List.dropLast_concat, flattenUnits_append, flattenUnits_append]
        show flattenUnits ys ++ ((last.files ++ files) ++ []) =
          (flattenUnits ys ++ (last.files ++ [])) ++ files
        simp [List.append_assoc]
      · rw [if_neg hgl, flattenUnits_append]
        show flattenUnits results ++ (files ++ []) = flattenUnits results ++ files
        rw [List.append_nil]
  · rw [if_neg hg, flattenUnits_append, flattenUnits_map_singleton]

/-- A successful `get_results` step adds exactly the entry's files to the
flattened output (the `@` post-step changes only a flag). -/
theorem flattenUnits_processEntry (cache : List CacheEntry)
    (results : List MatchResult) (e : PlaylistEntry) (rs : List MatchResult)
    (h : processEntry cache results e = Except.ok rs) :
    flattenUnits rs = flattenUnits results ++ entryFiles cache e := by
  simp only [processEntry] at h
  by_cases ha : e.options.contains '@'
  · rw [if_pos ha] at h
    cases hlast : (composeStep results (e.options.contains '|')
        (entryFiles cache e)).getLast? with
    | none => rw [hlast] at h; cases h
    | some last =>
      rw [hlast] at h
      injection h with h
      subst h
      rw [← flattenUnits_composeStep results (e.options.contains '|')
        (entryFiles cache e)]
      obtain ⟨ys, hys⟩ := List.getLast?_eq_some_iff.mp hlast
      rw [hys, List.dropLast_concat, flattenUnits_append, flattenUnits_append]
      rfl
  · rw [if_neg ha] at h
    injection h with h
    subst h
    exact flattenUnits_composeStep results _ _

/-- Evaluating one more entry at the end of the playlist. -/
theorem get_resultsAux_append (cache : List CacheEntry)
    (es : List PlaylistEntry) (e : PlaylistEntry) :
    ∀ results, get_resultsAux cache results (es ++ [e]) =
      (match get_resultsAux cache results es with
       | Except.ok rs => processEntry cache rs e
       | Except.error x => Except.error x) := by
  induction es with
  | nil =>
    intro results
    show get_resultsAux cache results [e] = processEntry cache results e
    simp only [get_resultsAux]
    cases processEntry cache results e <;> rfl
  | cons e0 es ih =>
    intro results
    show get_resultsAux cache results (e0 :: (es ++ [e])) = _
    simp only [get_resultsAux]
    cases processEntry cache results e0 with
    | ok r => exact ih r
    | error x => rfl

/-- C5 (confirmed): the composer folds left-to-right; an entry carrying
`|` extends the final unit exactly when that unit exists and is grouped,
otherwise starts one new grouped multi-file unit; an entry without `|`
appends one independent single-file unit per matched file and never
merges into a preceding grouped unit.  (Scoped to entries without the
orthogonal `@` option, which only flips the final unit's fixed flag.) -/
theorem C5_merge_policy (cache : List CacheEntry) (es : List PlaylistEntry)
    (e : PlaylistEntry) (rs : List MatchResult)
    (hok : get_results es cache = Except.ok rs)
    (hat : e.options.contains '@' = false) :
    get_results (es ++ [e]) cache = Except.ok (
      if e.options.contains '|' then
        match rs.getLast? with
        | some last =>
          if last.grouped then
            rs.dropLast ++ [⟨last.files ++ entryFiles cache e, true,
              last.fixed_position⟩]
          else rs ++ [⟨entryFiles cache e, true, false⟩]
        | none => rs ++ [⟨entryFiles cache e, true, false⟩]
      else rs ++ (entryFiles cache e).map (fun f => ⟨[f], false, false⟩)) := by
  unfold get_results at hok ⊢
  rw [get_resultsAux_append, hok]
  simp only [processEntry, hat, Bool.false_eq_true, if_false]
  rfl

/-- Witness for C5: a grouped entry follows a plain entry, starting a new
grouped unit because the preceding unit is not grouped. -/
theorem C5_merge_policy_witness :
    (get_results [samplePlainEntry] [sampleBob] =
      Except.ok [⟨[⟨"/m/bob.mp3".toList, none, none⟩], false, false⟩] ∧
     sampleGroupedEntry.options.contains '@' = false) ∧
    get_results ([samplePlainEntry] ++ [sampleGroupedEntry]) [sampleBob] =
      Except.ok (
        if sampleGroupedEntry.options.contains '|' then
          match ([⟨[⟨"/m/bob.mp3".toList, none, none⟩], false, false⟩] :
              List MatchResult).getLast? with
          | some last =>
            if last.grouped then
              ([⟨[⟨"/m/bob.mp3".toList, none, none⟩], false, false⟩] :
                List MatchResult).dropLast ++
                [⟨last.files ++ entryFiles [sampleBob] sampleGroupedEntry, true,
                  last.fixed_position⟩]
            else [⟨[⟨"/m/bob.mp3".toList, none, none⟩], false, false⟩] ++
              [⟨entryFiles [sampleBob] sampleGroupedEntry, true, false⟩]
          | none => [⟨[⟨"/m/bob.mp3".toList, none, none⟩], false, false⟩] ++
            [⟨entryFiles [sampleBob] sampleGroupedEntry, true, false⟩]
        else [⟨[⟨"/m/bob.mp3".toList, none, none⟩], false, false⟩] ++
          (entryFiles [sampleBob] sampleGroupedEntry).map
            (fun f => ⟨[f], false, false⟩)) :=
  ⟨⟨by decide, by decide⟩,
    C5_merge_policy [sampleBob] [samplePlainEntry] sampleGroupedEntry
      [⟨[⟨"/m/bob.mp3".toList, none, none⟩], false, false⟩]
      (by decide) (by decide)⟩

/-- C8 (confirmed): with `adjustment = count('+') - count('-')`, a zero
adjustment attaches no gain; an adjustment with `adjustment + 8 <= 0`
(the `log2` domain error) attaches no gain either, yet the entry's
matched files still enter the output and the previously composed files
are preserved unchanged in front of them. -/
theorem C8_volume_domain_error :
    (∀ options : List Char, optAdj options = 0 → entryGain options = none) ∧
    (∀ options : List Char, optAdj options + 8 ≤ 0 → entryGain options = none) ∧
    (∀ (cache : List CacheEntry) (results : List MatchResult)
        (e : PlaylistEntry) (rs : List MatchResult),
      optAdj e.options + 8 ≤ 0 →
      processEntry cache results e = Except.ok rs →
      (∀ f ∈ entryFiles cache e, f.gain = none) ∧
      flattenUnits rs = flattenUnits results ++ entryFiles cache e) := by
  refine ⟨?_, ?_, ?_⟩
  · intro options h
    unfold entryGain
    rw [if_neg]
    intro hc
    exact hc.1 h
  · intro options h
    unfold entryGain
    rw [if_neg]
    intro hc
    omega
  · intro cache results e rs hdom hok
    constructor
    · intro f hf
      unfold entryFiles at hf
      rcases List.mem_map.mp hf with ⟨p, _, hp⟩
      have hgain : entryGain e.options = none := by
        unfold entryGain
        rw [if_neg]
        intro hc
        omega
      rw [← hp]
      exact hgain
    · exact flattenUnits_processEntry cache results e rs hok

/-- Witness for C8: the spec scenario `--------artist=Bob` (adjustment
`-8`): the match is still produced, with no gain attached. -/
theorem C8_volume_domain_error_witness :
    (optAdj sampleQuietEntry.options + 8 ≤ 0 ∧
     processEntry [sampleBob] [] sampleQuietEntry =
       Except.ok [⟨[⟨"/m/bob.mp3".toList, none, none⟩], false, false⟩]) ∧
    ((∀ f ∈ entryFiles [sampleBob] sampleQuietEntry, f.gain = none) ∧
     flattenUnits [⟨[⟨"/m/bob.mp3".toList, none, none⟩], false, false⟩] =
       flattenUnits [] ++ entryFiles [sampleBob] sampleQuietEntry) :=
  ⟨⟨by decide, by decide⟩,
    C8_volume_domain_error.2.2 [sampleBob] [] sampleQuietEntry
      [⟨[⟨"/m/bob.mp3".toList, none, none⟩], false, false⟩]
      (by decide) (by decide)⟩

/-- Without the `@` option, every composer step succeeds. -/
theorem get_resultsAux_ok_of_no_at (cache : List CacheEntry)
    (es : List PlaylistEntry)
    (hno : ∀ e ∈ es, e.options.contains '@' = false) :
    ∀ results, ∃ rs, get_resultsAux cache results es = Except.ok rs := by
  induction es with
  | nil => intro results; exact ⟨results, rfl⟩
  | cons e0 es ih =>
    intro results
    have h0 : e0.options.contains '@' = false :=
      hno e0 (List.mem_cons_self e0 es)
    have hstep : processEntry cache results e0 =
        Except.ok (composeStep results (e0.options.contains '|')
          (entryFiles cache e0)) := by
      simp only [processEntry, h0, Bool.false_eq_true, if_false]
    obtain ⟨rs, hrs⟩ := ih (fun e he => hno e (List.mem_cons_of_mem _ he))
      (composeStep results (e0.options.contains '|') (entryFiles cache e0))
    refine ⟨rs, ?_⟩
    simp only [get_resultsAux, hstep]
    exact hrs

/-- C2 (amended): parse failures, invalid tags, count mismatches and
volume-adjustment domain errors are all recovered locally, and core
evaluation returns a result for every playlist whose parsed entries never
carry the `@` option; an `@`-entry reaching an empty running result list
is the one uncaught failure (see the counterexample). -/
theorem C2_core_evaluation_total_without_at (lines : List (List Char))
    (cache : List CacheEntry) (shuffle : Bool)
    (perm : List MatchResult → List MatchResult)
    (hno : ∀ e ∈ parse_entries lines, e.options.contains '@' = false) :
    ∃ fs, load_playlist_core lines cache shuffle perm = Except.ok fs := by
  obtain ⟨rs, hrs⟩ :=
    get_resultsAux_ok_of_no_at cache (parse_entries lines) hno []
  refine ⟨flattenUnits (if shuffle then shuffled perm rs else rs), ?_⟩
  unfold load_playlist_core get_results
  rw [hrs]

/-- Witness for C2: a playlist exercising all four recovered error
conditions (a count mismatch, an invalid tag, a parse failure, and a
volume domain error) evaluates without an uncaught exception. -/
theorem C2_core_evaluation_total_without_at_witness :
    (∀ e ∈ parse_entries ["artist=Bob".toList, "2:artist=Bob".toList,
        "zzz=1".toList, "17badline".toList, "--------artist=Bob".toList],
      e.options.contains '@' = false) ∧
    ∃ fs, load_playlist_core ["artist=Bob".toList, "2:artist=Bob".toList,
        "zzz=1".toList, "17badline".toList, "--------artist=Bob".toList]
      [sampleBob] false (fun l => l) = Except.ok fs :=
  ⟨by decide,
    C2_core_evaluation_total_without_at _ [sampleBob] false (fun l => l)
      (by decide)⟩

/-- C2 (counterexample): the first playlist entry carrying `@` with no
matches leaves the running result list empty, and the source's
`results[-1].fixed_position = True` raises an uncaught `IndexError`. -/
theorem C2_at_option_uncaught_error :
    load_playlist_core ["@artist=z".toList] [] false (fun l => l) =
      Except.error () := by
  decide

/-- The partition loop of `shuffled` with a general accumulator and start
index: it appends the fixed pairs and the non-fixed units in order. -/
theorem partitionLoop_eq (l : List MatchResult) :
    ∀ (n : Nat) (acc1 : List (Nat × MatchResult)) (acc2 : List MatchResult),
      (l.enumFrom n).foldl
        (fun acc pr =>
          if pr.2.fixed_position then (acc.1 ++ [pr], acc.2)
          else (acc.1, acc.2 ++ [pr.2])) (acc1, acc2) =
      (acc1 ++ (l.enumFrom n).filter (fun p => p.2.fixed_position),
       acc2 ++ l.filter (fun r => !r.fixed_position)) := by
  induction l with
  | nil =>
    intro n acc1 acc2
    show (acc1, acc2) = (acc1 ++ List.filter _ [], acc2 ++ List.filter _ [])
    simp
  | cons r l ih =>
    intro n acc1 acc2
    have hr : List.enumFrom n (r :: l) = (n, r) :: List.enumFrom (n + 1) l := rfl
    rw [hr, List.foldl_cons]
    cases h : r.fixed_position with
    | true =>
      rw [if_pos rfl, ih (n + 1)]
      simp [List.filter_cons, h, List.append_assoc]
    | false =>
      rw [if_neg (by decide : ¬(false = true)), ih (n + 1)]
      simp [List.filter_cons, h, List.append_assoc]

/-- The source's partition loop computes the spec-side partition. -/
theorem partitionResults_eq (results : List MatchResult) :
    partitionResults results = (fixedUnits results, nonFixedUnits results) := by
  unfold partitionResults fixedUnits nonFixedUnits
  have henum : results.enum = results.enumFrom 0 := rfl
  rw [henum, partitionLoop_eq results 0 [] []]
  simp

/-- C6 (confirmed): shuffling is exactly: partition into fixed pairs and
non-fixed units, permute the non-fixed list, re-insert each fixed unit at
its original index by literal list insertion in original order, then
flatten. -/
theorem C6_shuffle_procedure (perm : List MatchResult → List MatchResult)
    (results : List MatchResult) :
    flattenUnits (shuffled perm results) =
      flattenUnits ((fixedUnits results).foldl
        (fun acc pr => pyInsert acc pr.1 pr.2)
        (perm (nonFixedUnits results))) := by
  unfold shuffled
  rw [partitionResults_eq]

/-- `enumFrom` is `enum` with every index shifted. -/
theorem enumFrom_eq_map_enum (l : List MatchResult) :
    ∀ n, l.enumFrom n = l.enum.map (fun p => (p.1 + n, p.2)) := by
  induction l with
  | nil => intro n; rfl
  | cons x l ih =>
    intro n
    show (n, x) :: l.enumFrom (n + 1) = _
    have h0 : (x :: l).enum = (0, x) :: l.enumFrom 1 := rfl
    rw [h0, List.map_cons, ih (n + 1), ih 1, List.map_map]
    have harg : (fun p : Nat × MatchResult => (p.1 + n, p.2)) ∘
        (fun p : Nat × MatchResult => (p.1 + 1, p.2)) =
        (fun p : Nat × MatchResult => (p.1 + (n + 1), p.2)) := by
      funext p
      show (p.1 + 1 + n, p.2) = (p.1 + (n + 1), p.2)
      rw [Nat.add_assoc, Nat.add_comm 1 n]
    rw [harg]
    show ((n, x) : Nat × MatchResult) :: _ = ((0 + n, x) : Nat × MatchResult) :: _
    rw [Nat.zero_add]

/-- `enumFrom` distributes over append, shifting the second start index. -/
theorem enumFrom_append (xs ys : List MatchResult) :
    ∀ n, (xs ++ ys).enumFrom n = xs.enumFrom n ++ ys.enumFrom (n + xs.length) := by
  induction xs with
  | nil =>
    intro n
    show ys.enumFrom n = ys.enumFrom (n + 0)
    rw [Nat.add_zero]
  | cons x xs ih =>
    intro n
    show (n, x) :: (xs ++ ys).enumFrom (n + 1) = _
    rw [ih (n + 1)]
    show (n, x) :: (xs.enumFrom (n + 1) ++ ys.enumFrom (n + 1 + xs.length)) =
      (n, x) :: xs.enumFrom (n + 1) ++ ys.enumFrom (n + (xs.length + 1))
    rw [Nat.add_assoc, Nat.add_comm 1 xs.length]
    rfl

/-- The fixed-pair list across an inserted non-fixed unit: units before it
keep their indices, units after it are shifted by one extra slot. -/
theorem fixedUnits_append_cons (xs ys : List MatchResult) (u : MatchResult)
    (hu : u.fixed_position = false) :
    fixedUnits (xs ++ u :: ys) =
      fixedUnits xs ++
        (fixedUnits ys).map (fun p => (p.1 + (xs.length + 1), p.2)) := by
  unfold fixedUnits
  have henum : (xs ++ u :: ys).enum = (xs ++ u :: ys).enumFrom 0 := rfl
  have henum2 : xs.enum = xs.enumFrom 0 := rfl
  rw [henum, enumFrom_append, List.filter_append, ← henum2]
  congr 1
  show List.filter _ ((0 + xs.length, u) :: ys.enumFrom (0 + xs.length + 1)) = _
  rw [List.filter_cons_of_neg (by simpa using hu)]
  rw [enumFrom_eq_map_enum ys (0 + xs.length + 1), List.filter_map]
  have hcomp : ((fun p : Nat × MatchResult => p.2.fixed_position) ∘
      (fun p : Nat × MatchResult => (p.1 + (0 + xs.length + 1), p.2))) =
      (fun p : Nat × MatchResult => p.2.fixed_position) := rfl
  rw [hcomp]
  have hidx : (0 + xs.length + 1) = xs.length + 1 := by omega
  rw [hidx]

/-- The non-fixed units across an inserted non-fixed unit. -/
theorem nonFixedUnits_append_cons (xs ys : List MatchResult) (u : MatchResult)
    (hu : u.fixed_position = false) :
    nonFixedUnits (xs ++ u :: ys) =
      nonFixedUnits xs ++ u :: nonFixedUnits ys := by
  unfold nonFixedUnits
  rw [List.filter_append, List.filter_cons_of_pos (by simpa using hu)]

/-- C10 (confirmed): a grouped entry with zero matches whose predecessor
unit is absent or not grouped appends an empty grouped unit; that unit
contributes nothing to the flattened output, yet occupies an index
position of the result sequence, shifting the recorded original indices
at which subsequent fixed-position units are re-inserted. -/
theorem C10_empty_grouped_unit :
    (∀ (cache : List CacheEntry) (results : List MatchResult)
        (e : PlaylistEntry),
      e.options.contains '|' = true →
      match_files e.query cache = [] →
      (∀ last, results.getLast? = some last → last.grouped = false) →
      processEntry cache results e =
        Except.ok (results ++ [⟨[], true, e.options.contains '@'⟩])) ∧
    (∀ (results : List MatchResult) (u : MatchResult), u.files = [] →
      flattenUnits (results ++ [u]) = flattenUnits results) ∧
    (∀ (xs ys : List MatchResult) (u : MatchResult),
      u.fixed_position = false →
      partitionResults (xs ++ u :: ys) =
        (fixedUnits xs ++
          (fixedUnits ys).map (fun p => (p.1 + (xs.length + 1), p.2)),
         nonFixedUnits xs ++ u :: nonFixedUnits ys)) := by
  refine ⟨?_, ?_, ?_⟩
  · intro cache results e hpipe hmatch hlast
    have hfiles : entryFiles cache e = [] := by
      unfold entryFiles
      rw [hmatch]
      rfl
    have hcomp : composeStep results (e.options.contains '|')
        (entryFiles cache e) = results ++ [⟨[], true, false⟩] := by
      rw [hfiles, hpipe]
      unfold composeStep
      rw [if_pos rfl]
      cases hl : results.getLast? with
      | none => rfl
      | some last =>
        dsimp only
        rw [if_neg]
        rw [hlast last hl]
        intro hc
        cases hc
    simp only [processEntry, hcomp]
    by_cases ha : e.options.contains '@'
    · rw [if_pos ha, List.getLast?_concat]
      rw [List.dropLast_concat, ha]
    · rw [if_neg ha]
      have ha2 : e.options.contains '@' = false := by
        cases hb : e.options.contains '@'
        · rfl
        · exact absurd hb ha
      rw [ha2]
  · intro results u hu
    rw [flattenUnits_append]
    show flattenUnits results ++ (u.files ++ []) = flattenUnits results
    rw [hu]
    simp
  · intro xs ys u hu
    rw [partitionResults_eq, fixedUnits_append_cons xs ys u hu,
      nonFixedUnits_append_cons xs ys u hu]

/-- Witness for C10: the grouped no-match entry appended to an empty
running result list yields exactly one empty grouped unit. -/
theorem C10_empty_grouped_unit_witness :
    (sampleEmptyGroupEntry.options.contains '|' = true ∧
     match_files sampleEmptyGroupEntry.query [] = []) ∧
    processEntry [] [] sampleEmptyGroupEntry =
      Except.ok ([] ++ [⟨[], true,
        sampleEmptyGroupEntry.options.contains '@'⟩]) :=
  ⟨⟨by decide, by decide⟩,
    C10_empty_grouped_unit.1 [] [] sampleEmptyGroupEntry (by decide)
      (by decide) (by intro last h; simp at h)⟩
